import Mathlib

set_option maxHeartbeats 1000000

/-!
Verification development for the clinical change tracker demo
(`streamlit_app.py`).  Strings are modelled as `List Char`; every Python
helper that the claims mention is embedded as an executable Lean function.
-/

abbrev S := List Char

/-- Whitespace characters of Python's `str.strip` / regex `\s` (ASCII range). -/
def isPySpace (c : Char) : Bool :=
  c = ' ' || c = '\t' || c = '\n' || c = '\x0b' || c = '\x0c' || c = '\r'

/-- Python `str.strip()`: drop whitespace from both ends. -/
def pyStrip (s : S) : S :=
  ((s.dropWhile isPySpace).reverse.dropWhile isPySpace).reverse

/-- Python `str.lower()` (ASCII). -/
def pyLower (s : S) : S := s.map Char.toLower

/-- Worker for `splitlines`; `cur` is the current line, reversed.  Covers the
line breaks that occur in this app's data: `\n`, `\r`, `\r\n`. -/
def splitlinesGo (cur : S) : S → List S
  | [] => [cur.reverse]
  | [c] => if c = '\n' || c = '\r' then [cur.reverse] else [(c :: cur).reverse]
  | c :: c2 :: rest =>
    if c = '\n' then cur.reverse :: splitlinesGo [] (c2 :: rest)
    else if c = '\r' then
      (if c2 = '\n' then
        match rest with
        | [] => [cur.reverse]
        | c3 :: rest2 => cur.reverse :: splitlinesGo [] (c3 :: rest2)
      else cur.reverse :: splitlinesGo [] (c2 :: rest))
    else splitlinesGo (c :: cur) (c2 :: rest)

/-- Python `str.splitlines()` (the empty string yields no lines, and a
trailing line break yields no trailing empty line). -/
def splitlines : S → List S
  | [] => []
  | c :: rest => splitlinesGo [] (c :: rest)

/-- Python `sep.join(xs)`. -/
def joinSep (sep : S) : List S → S
  | [] => []
  | [x] => x
  | x :: y :: rest => x ++ sep ++ joinSep sep (y :: rest)

def nl : S := ['\n']

def nn : S := ['\n', '\n']

/-- Regex `\w` (ASCII approximation of Python's word character). -/
def isWordChar (c : Char) : Bool := c.isAlphanum || c = '_'

/-- Worker for `tokenize`; `cur` holds the current word-character run,
reversed. -/
def tokenizeGo (cur : S) : S → List S
  | [] => if cur.isEmpty then [] else [cur.reverse]
  | c :: rest =>
    if isWordChar c then tokenizeGo (c :: cur) rest
    else if cur.isEmpty then tokenizeGo [] rest
    else cur.reverse :: tokenizeGo [] rest

/-- `re.findall(r"\w+", q)`: the maximal runs of word characters of `q`. -/
def tokenize (s : S) : List S := tokenizeGo [] s

/-- `html.escape` on one character (`quote=True`, as the code uses it). -/
def escapeChar (c : Char) : S :=
  if c = '&' then "&amp;".toList
  else if c = '<' then "&lt;".toList
  else if c = '>' then "&gt;".toList
  else if c = Char.ofNat 34 then "&quot;".toList
  else if c = Char.ofNat 39 then "&#x27;".toList
  else [c]

/-- Python `html.escape`. -/
def htmlEscape (s : S) : S := (s.map escapeChar).flatten

/-- Case-insensitive literal-prefix test: does one alternation branch of the
compiled `re.I` pattern match at the current position? -/
def ciStarts : S → S → Bool
  | [], _ => true
  | _ :: _, [] => false
  | a :: as, b :: bs => (a.toLower == b.toLower) && ciStarts as bs

/-- The first alternation branch that matches at this position (Python tries
the branches left to right). -/
def firstTok (toks : List S) (s : S) : Option S :=
  toks.find? (fun t => ciStarts t s)

/-- Fueled scan counting the non-overlapping matches that `pattern.findall`
and `pattern.sub` produce; callers pass fuel `≥ s.length`.  Tokens produced
by `\w+` are nonempty, so `max t.length 1 = t.length`. -/
def countMatchesF (toks : List S) : Nat → S → Nat
  | 0, _ => 0
  | _ + 1, [] => 0
  | fuel + 1, c :: rest =>
    match firstTok toks (c :: rest) with
    | some t => 1 + countMatchesF toks fuel ((c :: rest).drop (max t.length 1))
    | none => countMatchesF toks fuel rest

def countMatches (toks : List S) (s : S) : Nat := countMatchesF toks s.length s

def spanOpen : S := "<span class=\"marked\">".toList

def spanClose : S := "</span>".toList

/-- Fueled `pattern.sub`: wrap each match of the alternation pattern in the
marker span (`m.group(0)` is the matched text itself). -/
def subMarkedF (toks : List S) : Nat → S → S
  | 0, s => s
  | _ + 1, [] => []
  | fuel + 1, c :: rest =>
    match firstTok toks (c :: rest) with
    | some t =>
      spanOpen ++ (c :: rest).take (max t.length 1) ++ spanClose ++
        subMarkedF toks fuel ((c :: rest).drop (max t.length 1))
    | none => c :: subMarkedF toks fuel rest

def subMarked (toks : List S) (s : S) : S := subMarkedF toks s.length s

def preO : S := "<pre>".toList

def preC : S := "</pre>".toList

/-- `highlight_text` from streamlit_app.py.  (`re.escape` is the identity on
the word characters `\w+` yields, so it is dropped.) -/
def highlight_text (text query : S) : S :=
  if text.isEmpty || (pyStrip query).isEmpty then preO ++ htmlEscape text ++ preC
  else
    let escaped := htmlEscape text
    let tokens := tokenize query
    if tokens.isEmpty then preO ++ escaped ++ preC
    else preO ++ subMarked tokens escaped ++ preC

/-- `count_hits` from streamlit_app.py. -/
def count_hits (text query : S) : Nat :=
  if text.isEmpty || (pyStrip query).isEmpty then 0
  else
    let tokens := tokenize query
    if tokens.isEmpty then 0
    else countMatches tokens text

/-- The number of marker spans `highlight_text` inserts: the number of
replacements its `pattern.sub` performs on the escaped text (see
`subMarkedF_count_lt` for the link to the emitted markup). -/
def highlightMarkerCount (text query : S) : Nat :=
  if text.isEmpty || (pyStrip query).isEmpty then 0
  else
    let tokens := tokenize query
    if tokens.isEmpty then 0
    else countMatches tokens (htmlEscape text)

def htmlSpecial : List Char := ['&', '<', '>', Char.ofNat 34, Char.ofNat 39]

def keyMeds : S := "meds".toList

def keyOrders : S := "orders".toList

def keyPtot : S := "ptot".toList

def keyCm : S := "cm".toList

def keyBrief : S := "brief".toList

/-- `SECTION_KEYS`: the ordered canonical-key / alias table (alias order is
load-bearing: first substring match wins). -/
def SECTION_KEYS : List (S × List S) :=
  [(keyMeds, ["medications".toList, "med changes".toList, "medication changes".toList]),
   (keyOrders, ["orders & plan".toList, "orders/plan".toList, "plan changes".toList,
      "orders".toList, "plan".toList]),
   (keyPtot, ["pt/ot".toList, "rehab".toList, "therapy".toList]),
   (keyCm, ["case management".toList, "disposition".toList, "discharge plan".toList]),
   (keyBrief, ["role brief".toList, "nursing brief".toList, "clinician brief".toList,
      "summary brief".toList])]

/-- Exact literal-prefix test used by the substring search. -/
def leadsWith : S → S → Bool
  | [], _ => true
  | _ :: _, [] => false
  | a :: as, b :: bs => (a == b) && leadsWith as bs

/-- Python `a in s` (substring occurrence). -/
def isSubstr (a : S) : S → Bool
  | [] => a.isEmpty
  | b :: rest => leadsWith a (b :: rest) || isSubstr a rest

/-- The alias scan of `normalize_key`: the first table entry one of whose
aliases occurs in `h` wins; no match yields the empty string. -/
def findKey : List (S × List S) → S → S
  | [], _ => []
  | (k, aliases) :: rest, h => if aliases.any (fun a => isSubstr a h) then k else findKey rest h

/-- `normalize_key` from streamlit_app.py. -/
def normalize_key (hdr : S) : S := findKey SECTION_KEYS (pyLower (pyStrip hdr))

/-- Does the line begin with a `\s` character? -/
def hasWsHead : S → Bool
  | [] => false
  | c :: _ => isPySpace c

/-- `re.match(r"^#{2,3}\s+(.*)$", line)`: `some` of group 1 when the line is
a level-2/3 heading (two or three `#` followed by at least one whitespace
character); the greedy `\s+` means group 1 carries no leading whitespace. -/
def headingBody : S → Option S
  | '#' :: '#' :: '#' :: rest =>
    if hasWsHead rest then some (rest.dropWhile isPySpace) else none
  | '#' :: '#' :: rest =>
    if hasWsHead rest then some (rest.dropWhile isPySpace) else none
  | _ => none

/-- Python `line.startswith("#")`. -/
def isHashLine : S → Bool
  | '#' :: _ => true
  | _ => false

/-- The category key a heading line resolves to (the `current_key = k if k
else None` step): `none` for a malformed heading or an unrecognized label. -/
def headingKeyOf (line : S) : Option S :=
  match headingBody line with
  | some hdr => let k := normalize_key hdr; if k.isEmpty then none else some k
  | none => none

/-- The loop state of `split_sections`. -/
structure SplitState where
  cur : Option S
  buf : List S
  secs : List (S × S)

/-- Python dict assignment `m[k] = v`: replace in place, else append. -/
def dictInsert : List (S × S) → S → S → List (S × S)
  | [], k, v => [(k, v)]
  | (k', v') :: rest, k, v =>
    if k' == k then (k, v) :: rest else (k', v') :: dictInsert rest k v

/-- Python `m.get(k)`. -/
def getSec : List (S × S) → S → Option S
  | [], _ => none
  | (k', v) :: rest, k => if k' == k then some v else getSec rest k

/-- A flush site of `split_sections`: store the joined, stripped buffer
under the open key, if any. -/
def flushInto (st : SplitState) : List (S × S) :=
  match st.cur with
  | some k => dictInsert st.secs k (pyStrip (joinSep nl st.buf))
  | none => st.secs

/-- One iteration of the `split_sections` loop.  Note: on a `#` line the
buffer is cleared only when a section was open; lines buffered while no
section was open stay in the buffer. -/
def splitStep (st : SplitState) (line : S) : SplitState :=
  if isHashLine line then
    { cur := headingKeyOf line
      buf := if st.cur.isSome then [] else st.buf
      secs := flushInto st }
  else { st with buf := st.buf ++ [line] }

/-- `split_sections` from streamlit_app.py. -/
def split_sections (md : S) : List (S × S) :=
  flushInto ((splitlines md).foldl splitStep ⟨none, [], []⟩)

/-- Reference splitter following the spec's words ("an unrecognized heading
or a body preceding the first heading is discarded"): identical to
`splitStep` except that the buffered lines are discarded at every heading
line, so a body can never leak into a later category. -/
def specStep (st : SplitState) (line : S) : SplitState :=
  if isHashLine line then
    { cur := headingKeyOf line, buf := [], secs := flushInto st }
  else { st with buf := st.buf ++ [line] }

/-- The splitter the spec describes (see `specStep`). -/
def specSplitSections (md : S) : List (S × S) :=
  flushInto ((splitlines md).foldl specStep ⟨none, [], []⟩)

/-- No body line occurs while no recognized section is open (scans the lines
exactly as the splitter's loop does). -/
def noStrayFrom : Option S → List S → Bool
  | _, [] => true
  | cur, line :: rest =>
    if isHashLine line then noStrayFrom (headingKeyOf line) rest
    else cur.isSome && noStrayFrom cur rest

def hMeds : S := "## Medications".toList

def hOrders : S := "## Orders & Plan".toList

def hPtot : S := "## PT/OT".toList

def hCm : S := "## Case Management / Disposition".toList

def hBrief : S := "## Role Brief".toList

/-- One `if flag and sections.get(key): collected.append(heading + "\n" +
body)` step of the reassembly (Python truthiness: present and nonempty). -/
def pick (flag : Bool) (m : List (S × S)) (k heading : S) : List S :=
  match getSec m k with
  | some b => if flag && !b.isEmpty then [heading ++ '\n' :: b] else []
  | none => []

/-- The `collected` list built after a run, in the fixed display order. -/
def collectedList (fm fo fp fc fb : Bool) (m : List (S × S)) : List S :=
  pick fm m keyMeds hMeds ++ pick fo m keyOrders hOrders ++ pick fp m keyPtot hPtot ++
    pick fc m keyCm hCm ++ pick fb m keyBrief hBrief

/-- `final_text = "\n\n".join(collected).strip() or output_md` from
streamlit_app.py (`or` on strings: the empty string falls back to `raw`). -/
def final_text (fm fo fp fc fb : Bool) (m : List (S × S)) (raw : S) : S :=
  let j := pyStrip (joinSep nn (collectedList fm fo fp fc fb m))
  if j.isEmpty then raw else j

/-- Does some user-selected category have a nonempty parsed body? -/
def selectedNonempty (fm fo fp fc fb : Bool) (m : List (S × S)) : Bool :=
  (fm && !((getSec m keyMeds).getD []).isEmpty && (getSec m keyMeds).isSome) ||
  (fo && !((getSec m keyOrders).getD []).isEmpty && (getSec m keyOrders).isSome) ||
  (fp && !((getSec m keyPtot).getD []).isEmpty && (getSec m keyPtot).isSome) ||
  (fc && !((getSec m keyCm).getD []).isEmpty && (getSec m keyCm).isSome) ||
  (fb && !((getSec m keyBrief).getD []).isEmpty && (getSec m keyBrief).isSome)

/-- The two UI modes of the app. -/
inductive AppMode where
  | compare : AppMode
  | single : AppMode

/-- Outcome of pressing Run: either a validation warning followed by
`st.stop()` (the action aborts and no API request is issued), or a remote
summarizer call carrying the inputs the code passes. -/
inductive RunResult where
  | warn : S → RunResult
  | compareCall : S → S → S → RunResult
  | singleCall : S → S → RunResult

def warnBoth : S := "Paste text into both boxes first or load an example.".toList

def warnOne : S := "Paste a note first or load an example.".toList

/-- The `if run_btn:` handler of streamlit_app.py.  Python truthiness:
`not (note_a and note_b)` / `not note_b` hold exactly when a required note
is the empty string. -/
def runAction (mode : AppMode) (noteA noteB roleName : S) : RunResult :=
  match mode with
  | .compare =>
    if noteA.isEmpty || noteB.isEmpty then .warn warnBoth
    else .compareCall noteA noteB roleName
  | .single =>
    if noteB.isEmpty then .warn warnOne
    else .singleCall noteB roleName

/-- Python `line.split(" ")` (split at every single space; keeps empties). -/
def pySplitGo (cur : S) : S → List S
  | [] => [cur.reverse]
  | c :: rest =>
    if c = ' ' then cur.reverse :: pySplitGo [] rest
    else pySplitGo (c :: cur) rest

def pySplitSpace (s : S) : List S := pySplitGo [] s

/-- `c.stringWidth(s, "Helvetica", 10)`: in a simple (non-kerned) font the
width of a string is the sum of per-character advance widths, so the metric
is a parameter `cw` from characters to widths. -/
def sumW (cw : Char → Nat) (s : S) : Nat := (s.map cw).sum

/-- The word-wrap loop of `brief_to_pdf_bytes` for the words of one input
line: the sequence of lines it emits via `drawString`.  (Pagination only
moves the drawing position; it does not change the emitted lines.) -/
def wrapWords (cw : Char → Nat) (maxW : Nat) (current : S) : List S → List S
  | [] => if current.isEmpty then [] else [current]
  | w :: ws =>
    let test := pyStrip (current ++ ' ' :: w)
    if maxW < sumW cw test then current :: wrapWords cw maxW w ws
    else wrapWords cw maxW test ws

def wrapLine (cw : Char → Nat) (maxW : Nat) (line : S) : List S :=
  wrapWords cw maxW [] (pySplitSpace line)

/-- All lines `brief_to_pdf_bytes` emits for a text (`max_width = width -
2*inch` in the code). -/
def pdfLines (cw : Char → Nat) (maxW : Nat) (text : S) : List S :=
  (splitlines text).flatMap (wrapLine cw maxW)

/-- One reassembled section as (canonical key, display heading, body). -/
def renderBlock (x : S × S × S) : S := x.2.1 ++ '\n' :: x.2.2

/-- `pick`, keeping the key/heading/body triple instead of the rendered
string. -/
def pickB (flag : Bool) (m : List (S × S)) (k heading : S) : List (S × S × S) :=
  match getSec m k with
  | some b => if flag && !b.isEmpty then [(k, heading, b)] else []
  | none => []

/-- The selected nonempty sections, as triples, in display order. -/
def blocksOf (fm fo fp fc fb : Bool) (m : List (S × S)) : List (S × S × S) :=
  pickB fm m keyMeds hMeds ++ pickB fo m keyOrders hOrders ++ pickB fp m keyPtot hPtot ++
    pickB fc m keyCm hCm ++ pickB fb m keyBrief hBrief

/-- A body is well formed for reassembly: nonempty, no whitespace at either
end, no carriage return, and no line starting with `#`. -/
def goodBody (b : S) : Prop :=
  b ≠ [] ∧ isPySpace (b.headD 'x') = false ∧ isPySpace (b.reverse.headD 'x') = false ∧
    '\r' ∉ b ∧ ∀ l ∈ splitlines b, isHashLine l = false

/-- A reassembled block is well formed: its heading is a one-line recognized
heading resolving to its own key, and its body is well formed. -/
def goodBlock (x : S × S × S) : Prop :=
  isHashLine x.2.1 = true ∧ '\n' ∉ x.2.1 ∧ '\r' ∉ x.2.1 ∧
    headingKeyOf x.2.1 = some x.1 ∧ goodBody x.2.2

def blockLines (x : S × S × S) : List S := x.2.1 :: splitlines x.2.2

/-- The line sequence of the reassembled output: each block's heading and
body lines, with one empty separator line between blocks. -/
def linesOf : List (S × S × S) → List S
  | [] => []
  | [x] => blockLines x
  | x :: y :: rest => blockLines x ++ [] :: linesOf (y :: rest)

/-- `"\n\n".join` over the rendered blocks. -/
def reassemble (blocks : List (S × S × S)) : S := joinSep nn (blocks.map renderBlock)

instance goodBodyDecidable (b : S) : Decidable (goodBody b) := by
  unfold goodBody
  infer_instance

theorem escapeChar_of_plain (c : Char) (h : c ∉ htmlSpecial) : escapeChar c = [c] := by
  simp only [htmlSpecial, List.mem_cons, List.mem_singleton, not_or] at h
  obtain ⟨h1, h2, h3, h4, h5⟩ := h
  simp [escapeChar, h1, h2, h3, h4, h5]

theorem htmlEscape_of_plain (t : S) (h : ∀ c ∈ t, c ∉ htmlSpecial) : htmlEscape t = t := by
  induction t with
  | nil => rfl
  | cons c t ih =>
    have hc : escapeChar c = [c] := escapeChar_of_plain c (h c (by simp))
    have ht : htmlEscape t = t := ih (fun x hx => h x (by simp [hx]))
    simp only [htmlEscape, List.map_cons, List.flatten] at ht ⊢
    simp [hc, ht]

/-- Each replacement `subMarkedF` performs inserts exactly one marker span,
i.e. two `<` characters (the span-open and span-close tags). -/
theorem subMarkedF_count_lt (toks : List S) (fuel : Nat) (s : S) :
    (subMarkedF toks fuel s).count '<' = s.count '<' + 2 * countMatchesF toks fuel s := by
  induction fuel generalizing s with
  | zero => simp [subMarkedF, countMatchesF]
  | succ fuel ih =>
    match s with
    | [] => simp [subMarkedF, countMatchesF]
    | c :: rest =>
      simp only [subMarkedF, countMatchesF]
      match firstTok toks (c :: rest) with
      | some t =>
        simp only [List.count_append, ih]
        have htake : ((c :: rest).take (max t.length 1)).count '<' +
            ((c :: rest).drop (max t.length 1)).count '<' = (c :: rest).count '<' := by
          rw [← List.count_append, List.take_append_drop]
        have h1 : spanOpen.count '<' = 1 := by decide
        have h2 : spanClose.count '<' = 1 := by decide
        omega
      | none =>
        simp only [List.count_cons, ih]
        ring

/-- C7: highlighting any text with an empty or whitespace-only query returns
the HTML-escaped text wrapped in the `pre` block, unchanged and with no
markers inserted, and the match count for that text and query is 0. -/
theorem claim_C7 (text query : S) (hq : pyStrip query = []) :
    highlight_text text query = preO ++ htmlEscape text ++ preC ∧
    count_hits text query = 0 ∧ highlightMarkerCount text query = 0 := by
  have hb : (pyStrip query).isEmpty = true := by simp [hq]
  refine ⟨?_, ?_, ?_⟩
  · unfold highlight_text; simp [hb]
  · unfold count_hits; simp [hb]
  · unfold highlightMarkerCount; simp [hb]

/-- Witness for C7 at a concrete text and a whitespace-only query. -/
theorem claim_C7_witness :
    pyStrip "  \t".toList = [] ∧
    (highlight_text "a<b".toList "  \t".toList = preO ++ htmlEscape "a<b".toList ++ preC ∧
      count_hits "a<b".toList "  \t".toList = 0 ∧
      highlightMarkerCount "a<b".toList "  \t".toList = 0) :=
  ⟨by decide, claim_C7 "a<b".toList "  \t".toList (by decide)⟩

/-- C3 fails as stated: `count_hits` counts matches in the raw text, while
`highlight_text` substitutes on the HTML-escaped text, so a query token can
match inside an escape entity.  For `T = "&"`, `Q = "amp"` the count is 0
but one marker span is inserted (inside `&amp;`). -/
theorem claim_C3_counterexample :
    count_hits ['&'] "amp".toList = 0 ∧
    highlightMarkerCount ['&'] "amp".toList = 1 ∧
    count_hits ['&'] "amp".toList ≠ highlightMarkerCount ['&'] "amp".toList := by
  refine ⟨by decide, by decide, by decide⟩

/-- C3 (amended): for every text containing no HTML-escapable character
(`&`, `<`, `>`, the double quote, the apostrophe) and every query, the match
count returned by `count_hits` equals the number of highlight span markers
`highlight_text` inserts into the escaped text. -/
theorem claim_C3_amended (text query : S) (h : ∀ c ∈ text, c ∉ htmlSpecial) :
    count_hits text query = highlightMarkerCount text query := by
  unfold count_hits highlightMarkerCount
  rw [htmlEscape_of_plain text h]

/-- Witness for the amended C3 at a concrete escapable-free text. -/
theorem claim_C3_amended_witness :
    (∀ c ∈ "see amp here".toList, c ∉ htmlSpecial) ∧
    count_hits "see amp here".toList "amp".toList =
      highlightMarkerCount "see amp here".toList "amp".toList :=
  ⟨by decide, claim_C3_amended "see amp here".toList "amp".toList (by decide)⟩

theorem getSec_dictInsert_self (m : List (S × S)) (k v : S) :
    getSec (dictInsert m k v) k = some v := by
  induction m with
  | nil => simp [dictInsert, getSec]
  | cons p rest ih =>
    obtain ⟨k', v'⟩ := p
    by_cases h : k' = k
    · subst h; simp [dictInsert, getSec]
    · simp [dictInsert, getSec, h, ih]

theorem getSec_dictInsert_ne (m : List (S × S)) (k v k2 : S) (h : k2 ≠ k) :
    getSec (dictInsert m k v) k2 = getSec m k2 := by
  have h' : ¬k = k2 := fun hh => h hh.symm
  induction m with
  | nil => simp [dictInsert, getSec, h']
  | cons p rest ih =>
    obtain ⟨k', v'⟩ := p
    by_cases hk : k' = k
    · subst hk; simp [dictInsert, getSec, h']
    · simp [dictInsert, getSec, hk, ih]

theorem getSec_isSome_dictInsert (m : List (S × S)) (k v k2 : S)
    (h : (getSec (dictInsert m k v) k2).isSome = true) :
    k2 = k ∨ (getSec m k2).isSome = true := by
  by_cases hk : k2 = k
  · exact Or.inl hk
  · right; rw [getSec_dictInsert_ne m k v k2 hk] at h; exact h

theorem findKey_mem (tbl : List (S × List S)) (h : S) :
    findKey tbl h = [] ∨ findKey tbl h ∈ tbl.map Prod.fst := by
  induction tbl with
  | nil => exact Or.inl rfl
  | cons p rest ih =>
    obtain ⟨k, aliases⟩ := p
    unfold findKey
    by_cases hc : aliases.any (fun a => isSubstr a h) = true
    · rw [if_pos hc]; right; simp
    · rw [if_neg hc]
      rcases ih with h1 | h1
      · exact Or.inl h1
      · right; simp [h1]

theorem headingKeyOf_mem (line k : S) (h : headingKeyOf line = some k) :
    k ∈ SECTION_KEYS.map Prod.fst := by
  unfold headingKeyOf at h
  cases hb : headingBody line with
  | none => rw [hb] at h; cases h
  | some hdr =>
    rw [hb] at h
    simp only at h
    by_cases he : (normalize_key hdr).isEmpty = true
    · rw [if_pos he] at h; cases h
    · rw [if_neg he] at h
      injection h with h
      subst h
      rcases findKey_mem SECTION_KEYS (pyLower (pyStrip hdr)) with h1 | h1
      · exact absurd (by simp [normalize_key, h1]) he
      · exact h1

theorem flushInto_keys (st : SplitState)
    (hsecs : ∀ k, (getSec st.secs k).isSome = true → k ∈ SECTION_KEYS.map Prod.fst)
    (hcur : ∀ k, st.cur = some k → k ∈ SECTION_KEYS.map Prod.fst) :
    ∀ k, (getSec (flushInto st) k).isSome = true → k ∈ SECTION_KEYS.map Prod.fst := by
  intro k hk
  unfold flushInto at hk
  cases hc : st.cur with
  | none => rw [hc] at hk; exact hsecs k hk
  | some k0 =>
    rw [hc] at hk
    rcases getSec_isSome_dictInsert _ _ _ _ hk with rfl | h2
    · exact hcur k hc
    · exact hsecs k h2

theorem keys_sub_aux (lines : List S) (st : SplitState)
    (hsecs : ∀ k, (getSec st.secs k).isSome = true → k ∈ SECTION_KEYS.map Prod.fst)
    (hcur : ∀ k, st.cur = some k → k ∈ SECTION_KEYS.map Prod.fst) :
    ∀ k, (getSec (flushInto (lines.foldl splitStep st)) k).isSome = true →
      k ∈ SECTION_KEYS.map Prod.fst := by
  induction lines generalizing st with
  | nil => exact flushInto_keys st hsecs hcur
  | cons line rest ih =>
    simp only [List.foldl_cons]
    by_cases hl : isHashLine line = true
    · apply ih
      · have : (splitStep st line).secs = flushInto st := by simp [splitStep, hl]
        rw [this]
        exact flushInto_keys st hsecs hcur
      · have : (splitStep st line).cur = headingKeyOf line := by simp [splitStep, hl]
        rw [this]
        intro k hk
        exact headingKeyOf_mem line k hk
    · apply ih
      · have : (splitStep st line).secs = st.secs := by simp [splitStep, hl]
        rw [this]; exact hsecs
      · have : (splitStep st line).cur = st.cur := by simp [splitStep, hl]
        rw [this]; exact hcur

theorem flushInto_no_key (st : SplitState) (k : S) (hcur : st.cur ≠ some k) :
    getSec (flushInto st) k = getSec st.secs k := by
  unfold flushInto
  cases hc : st.cur with
  | none => rfl
  | some k0 =>
    have hne : k ≠ k0 := by
      intro h; subst h; exact hcur hc
    rw [getSec_dictInsert_ne _ _ _ _ hne]

theorem foldl_no_key (lines : List S) (st : SplitState) (k : S)
    (hcur : st.cur ≠ some k)
    (hlines : ∀ line ∈ lines, headingKeyOf line ≠ some k) :
    (lines.foldl splitStep st).cur ≠ some k ∧
      getSec (lines.foldl splitStep st).secs k = getSec st.secs k := by
  induction lines generalizing st with
  | nil => exact ⟨hcur, rfl⟩
  | cons line rest ih =>
    simp only [List.foldl_cons]
    by_cases hl : isHashLine line = true
    · have hc2 : (splitStep st line).cur = headingKeyOf line := by simp [splitStep, hl]
      have hs2 : (splitStep st line).secs = flushInto st := by simp [splitStep, hl]
      have hrec := ih (splitStep st line)
        (by rw [hc2]; exact hlines line (by simp))
        (fun l hli => hlines l (by simp [hli]))
      refine ⟨hrec.1, ?_⟩
      rw [hrec.2, hs2, flushInto_no_key st k hcur]
    · have hc2 : (splitStep st line).cur = st.cur := by simp [splitStep, hl]
      have hs2 : (splitStep st line).secs = st.secs := by simp [splitStep, hl]
      have hrec := ih (splitStep st line)
        (by rw [hc2]; exact hcur)
        (fun l hli => hlines l (by simp [hli]))
      exact ⟨hrec.1, by rw [hrec.2, hs2]⟩

/-- C4: the splitter's map holds only recognized canonical keys, and a
category none of whose heading lines appears in the input is absent from the
map (never present with an empty body). -/
theorem claim_C4 (md : S) (k : S) :
    ((getSec (split_sections md) k).isSome = true → k ∈ SECTION_KEYS.map Prod.fst) ∧
    ((∀ line ∈ splitlines md, headingKeyOf line ≠ some k) →
      getSec (split_sections md) k = none) := by
  constructor
  · intro hk
    exact keys_sub_aux (splitlines md) ⟨none, [], []⟩
      (fun k h => by simp [getSec] at h) (fun k h => by cases h) k hk
  · intro hlines
    unfold split_sections
    have h := foldl_no_key (splitlines md) ⟨none, [], []⟩ k (by simp) hlines
    rw [flushInto_no_key _ k h.1, h.2]
    rfl

/-- Witness for C4: in a document holding only a Medications heading, the
present key is recognized and the `ptot` category is absent, not empty. -/
theorem claim_C4_witness :
    keyMeds ∈ SECTION_KEYS.map Prod.fst ∧
    getSec (split_sections "## Medications\nx".toList) keyPtot = none :=
  ⟨(claim_C4 "## Medications\nx".toList keyMeds).1 (by decide),
   (claim_C4 "## Medications\nx".toList keyPtot).2 (by decide)⟩

/-- C9: a line starting with `#` that is not a level-2/3 heading followed by
whitespace closes and flushes the open section, sets no current category
(so its text is never alias-matched), and is not added to any buffer. -/
theorem claim_C9 (st : SplitState) (line : S)
    (h1 : isHashLine line = true) (h2 : headingBody line = none) :
    (splitStep st line).cur = none ∧
    (splitStep st line).buf = (if st.cur.isSome then [] else st.buf) ∧
    (splitStep st line).secs = flushInto st := by
  have hk : headingKeyOf line = none := by unfold headingKeyOf; rw [h2]
  refine ⟨?_, ?_, ?_⟩ <;> simp [splitStep, h1, hk]

/-- Witness for C9 at the line `"# Title"` with an open `meds` section. -/
theorem claim_C9_witness :
    isHashLine "# Title".toList = true ∧ headingBody "# Title".toList = none ∧
    ((splitStep ⟨some keyMeds, ["abc".toList], []⟩ "# Title".toList).cur = none ∧
     (splitStep ⟨some keyMeds, ["abc".toList], []⟩ "# Title".toList).buf =
       (if (some keyMeds).isSome then [] else ["abc".toList]) ∧
     (splitStep ⟨some keyMeds, ["abc".toList], []⟩ "# Title".toList).secs =
       flushInto ⟨some keyMeds, ["abc".toList], []⟩) :=
  ⟨by decide, by decide, claim_C9 ⟨some keyMeds, ["abc".toList], []⟩ "# Title".toList
    (by decide) (by decide)⟩

theorem foldl_eq_spec (lines : List S) (st : SplitState)
    (hstray : noStrayFrom st.cur lines = true)
    (hinv : st.cur = none → st.buf = []) :
    lines.foldl splitStep st = lines.foldl specStep st := by
  induction lines generalizing st with
  | nil => rfl
  | cons line rest ih =>
    simp only [List.foldl_cons]
    unfold noStrayFrom at hstray
    by_cases hl : isHashLine line = true
    · rw [if_pos hl] at hstray
      have hstep : splitStep st line = specStep st line := by
        unfold splitStep specStep
        rw [if_pos hl, if_pos hl]
        cases hc : st.cur with
        | some k => simp
        | none => simp [hinv hc]
      rw [hstep]
      have hcur2 : (specStep st line).cur = headingKeyOf line := by simp [specStep, hl]
      have hbuf2 : (specStep st line).buf = [] := by simp [specStep, hl]
      exact ih (specStep st line) (by rw [hcur2]; exact hstray) (fun _ => hbuf2)
    · rw [if_neg hl] at hstray
      rw [Bool.and_eq_true] at hstray
      have hstep : splitStep st line = specStep st line := by
        unfold splitStep specStep
        rw [if_neg hl, if_neg hl]
      rw [hstep]
      have hcur2 : (specStep st line).cur = st.cur := by simp [specStep, hl]
      apply ih (specStep st line) (by rw [hcur2]; exact hstray.2)
      intro hc
      rw [hcur2] at hc
      rw [hc] at hstray
      cases hstray.1

/-- C1 (amended): the claim holds exactly on inputs with no stray body lines
(no body line before the first recognized heading and none under an
unrecognized or malformed heading): there `split_sections` agrees with the
spec-described splitter `specSplitSections`, whose stored body for each
category is the trimmed join of the non-heading lines under that category's
own heading.  In general such stray lines are not discarded but leak into
the body of the next recognized category (see the counterexample). -/
theorem claim_C1_amended (md : S) (h : noStrayFrom none (splitlines md) = true) :
    split_sections md = specSplitSections md := by
  unfold split_sections specSplitSections
  rw [foldl_eq_spec (splitlines md) ⟨none, [], []⟩ h (fun _ => rfl)]

/-- Witness for the amended C1 on a stray-free document. -/
theorem claim_C1_amended_witness :
    noStrayFrom none (splitlines "## Medications\na\n## PT/OT\nb".toList) = true ∧
    split_sections "## Medications\na\n## PT/OT\nb".toList =
      specSplitSections "## Medications\na\n## PT/OT\nb".toList :=
  ⟨by decide, claim_C1_amended "## Medications\na\n## PT/OT\nb".toList (by decide)⟩

/-- C1 fails as stated: a body preceding the first recognized heading is not
discarded — the loop clears its buffer only when flushing an open section,
so the preamble line `"pre"` leaks into the `meds` body.  The spec-described
splitter stores `"body"`, the code stores `"pre\nbody"`. -/
theorem claim_C1_counterexample :
    getSec (split_sections "pre\n## Medications\nbody".toList) keyMeds =
      some "pre\nbody".toList ∧
    getSec (specSplitSections "pre\n## Medications\nbody".toList) keyMeds =
      some "body".toList ∧
    ("pre\nbody".toList : S) ≠ "body".toList := by
  refine ⟨by decide, by decide, by decide⟩

theorem pick_eq_nil_iff (flag : Bool) (m : List (S × S)) (k heading : S) :
    pick flag m k heading = [] ↔
      ¬(flag = true ∧ (getSec m k).isSome = true ∧ ((getSec m k).getD []).isEmpty = false) := by
  unfold pick
  cases h : getSec m k with
  | none => simp
  | some b =>
    by_cases hf : flag = true
    · by_cases hb : b.isEmpty = true <;> simp [hf, hb]
    · simp [hf]

theorem collectedList_eq_nil_iff (fm fo fp fc fb : Bool) (m : List (S × S)) :
    collectedList fm fo fp fc fb m = [] ↔ selectedNonempty fm fo fp fc fb m = false := by
  unfold collectedList selectedNonempty
  rw [List.append_eq_nil, List.append_eq_nil, List.append_eq_nil, List.append_eq_nil]
  rw [pick_eq_nil_iff, pick_eq_nil_iff, pick_eq_nil_iff, pick_eq_nil_iff, pick_eq_nil_iff]
  cases hm : getSec m keyMeds <;> cases ho : getSec m keyOrders <;>
    cases hp : getSec m keyPtot <;> cases hc : getSec m keyCm <;>
    cases hb : getSec m keyBrief <;>
    simp [Bool.and_eq_true, Bool.or_eq_false_iff, Bool.and_eq_false_iff]

theorem headD_append_left (X Y : S) (d : Char) (h : X ≠ []) :
    (X ++ Y).headD d = X.headD d := by
  cases X with
  | nil => exact absurd rfl h
  | cons c t => rfl

theorem mem_pick (flag : Bool) (m : List (S × S)) (k heading x : S)
    (hx : x ∈ pick flag m k heading) : ∃ b, x = heading ++ '\n' :: b := by
  unfold pick at hx
  cases h : getSec m k with
  | none => rw [h] at hx; cases hx
  | some b =>
    rw [h] at hx
    have hx2 : x ∈ (if (flag && !b.isEmpty) = true then [heading ++ '\n' :: b] else []) := hx
    by_cases hf : (flag && !b.isEmpty) = true
    · rw [if_pos hf] at hx2
      rw [List.mem_singleton] at hx2
      exact ⟨b, hx2⟩
    · rw [if_neg hf] at hx2; cases hx2

theorem collectedList_head (fm fo fp fc fb : Bool) (m : List (S × S)) :
    ∀ x ∈ collectedList fm fo fp fc fb m, x ≠ [] ∧ x.headD 'x' = '#' := by
  intro x hx
  unfold collectedList at hx
  simp only [List.mem_append] at hx
  rcases hx with (((hx | hx) | hx) | hx) | hx
  · obtain ⟨b, rfl⟩ := mem_pick _ _ _ _ _ hx
    exact ⟨by simp [hMeds], by rw [headD_append_left _ _ _ (by decide)]; decide⟩
  · obtain ⟨b, rfl⟩ := mem_pick _ _ _ _ _ hx
    exact ⟨by simp [hOrders], by rw [headD_append_left _ _ _ (by decide)]; decide⟩
  · obtain ⟨b, rfl⟩ := mem_pick _ _ _ _ _ hx
    exact ⟨by simp [hPtot], by rw [headD_append_left _ _ _ (by decide)]; decide⟩
  · obtain ⟨b, rfl⟩ := mem_pick _ _ _ _ _ hx
    exact ⟨by simp [hCm], by rw [headD_append_left _ _ _ (by decide)]; decide⟩
  · obtain ⟨b, rfl⟩ := mem_pick _ _ _ _ _ hx
    exact ⟨by simp [hBrief], by rw [headD_append_left _ _ _ (by decide)]; decide⟩

theorem joinSep_headD (sep : S) (x : S) (rest : List S) (d : Char) (h : x ≠ []) :
    (joinSep sep (x :: rest)).headD d = x.headD d := by
  cases rest with
  | nil => rfl
  | cons y r =>
    show ((x ++ sep) ++ joinSep sep (y :: r)).headD d = x.headD d
    rw [headD_append_left _ _ _ (by simp [h]), headD_append_left _ _ _ h]

theorem pyStrip_ne_nil (l : S) (h : l ≠ []) (hh : isPySpace (l.headD 'x') = false) :
    pyStrip l ≠ [] := by
  obtain ⟨c, t, rfl⟩ := List.exists_cons_of_ne_nil h
  unfold pyStrip
  have hd : List.dropWhile isPySpace (c :: t) = c :: t := by
    rw [List.dropWhile_cons_of_neg]
    simp only [List.headD_cons] at hh
    simp [hh]
  rw [hd]
  intro hcon
  rw [List.reverse_eq_nil_iff, List.dropWhile_eq_nil_iff] at hcon
  have hc := hcon c (by simp)
  simp only [List.headD_cons] at hh
  rw [hh] at hc
  cases hc

/-- C5 fails as stated: the fallback to the raw model response is taken
exactly when no *selected* category has a nonempty body, not when no
recognized category matched.  Here `meds` matched with body `"body"`, but
with the Medications checkbox off the rendered text is the unfiltered raw
response (while the filtered reassembly of the selected categories would be
empty). -/
theorem claim_C5_counterexample :
    getSec (split_sections "## Medications\nbody".toList) keyMeds = some "body".toList ∧
    final_text false true true true true (split_sections "## Medications\nbody".toList)
      "## Medications\nbody".toList = "## Medications\nbody".toList ∧
    pyStrip (joinSep nn (collectedList false true true true true
      (split_sections "## Medications\nbody".toList))) = [] := by
  refine ⟨by decide, by decide, by decide⟩

/-- C5 (amended): the rendered/exported text is the stripped join of the
user-selected nonempty sections, and it falls back to the unfiltered raw
model response exactly when no user-selected category has a nonempty parsed
body. -/
theorem claim_C5_amended (fm fo fp fc fb : Bool) (m : List (S × S)) (raw : S) :
    (selectedNonempty fm fo fp fc fb m = false → final_text fm fo fp fc fb m raw = raw) ∧
    (selectedNonempty fm fo fp fc fb m = true →
      final_text fm fo fp fc fb m raw =
        pyStrip (joinSep nn (collectedList fm fo fp fc fb m)) ∧
      pyStrip (joinSep nn (collectedList fm fo fp fc fb m)) ≠ []) := by
  constructor
  · intro hsel
    have hc : collectedList fm fo fp fc fb m = [] :=
      (collectedList_eq_nil_iff fm fo fp fc fb m).mpr hsel
    unfold final_text
    rw [hc]
    rfl
  · intro hsel
    have hc : collectedList fm fo fp fc fb m ≠ [] := by
      intro hcon
      rw [(collectedList_eq_nil_iff fm fo fp fc fb m).mp hcon] at hsel
      cases hsel
    obtain ⟨x, rest, hxr⟩ := List.exists_cons_of_ne_nil hc
    have hx := collectedList_head fm fo fp fc fb m x (by rw [hxr]; simp)
    have hne : pyStrip (joinSep nn (collectedList fm fo fp fc fb m)) ≠ [] := by
      apply pyStrip_ne_nil
      · rw [hxr]
        cases rest with
        | nil => exact hx.1
        | cons y r => simp [joinSep, hx.1]
      · rw [hxr, joinSep_headD _ _ _ _ hx.1, hx.2]
        decide
    refine ⟨?_, hne⟩
    unfold final_text
    rw [if_neg (by simp [hne])]

/-- Witness for the amended C5: one selected nonempty category, so the
reassembly (not the fallback) is rendered and is nonempty. -/
theorem claim_C5_amended_witness :
    selectedNonempty true true true true true [(keyMeds, "x".toList)] = true ∧
    (final_text true true true true true [(keyMeds, "x".toList)] "raw".toList =
       pyStrip (joinSep nn (collectedList true true true true true [(keyMeds, "x".toList)])) ∧
     pyStrip (joinSep nn (collectedList true true true true true [(keyMeds, "x".toList)])) ≠ []) :=
  ⟨by decide,
    (claim_C5_amended true true true true true [(keyMeds, "x".toList)] "raw".toList).2
      (by decide)⟩

theorem isHashLine_of_headingBody (line hdr : S) (h : headingBody line = some hdr) :
    isHashLine line = true := by
  rw [headingBody.eq_def] at h
  split at h
  · rfl
  · rfl
  · cases h

theorem isHashLine_of_headingKeyOf (line k : S) (h : headingKeyOf line = some k) :
    isHashLine line = true := by
  unfold headingKeyOf at h
  cases hb : headingBody line with
  | none => rw [hb] at h; cases h
  | some hdr => exact isHashLine_of_headingBody line hdr hb

theorem foldl_inv_buf (lines : List S) (st : SplitState)
    (hstray : noStrayFrom st.cur lines = true)
    (hinv : st.cur = none → st.buf = []) :
    (lines.foldl splitStep st).cur = none → (lines.foldl splitStep st).buf = [] := by
  induction lines generalizing st with
  | nil => exact hinv
  | cons line rest ih =>
    simp only [List.foldl_cons]
    unfold noStrayFrom at hstray
    by_cases hl : isHashLine line = true
    · rw [if_pos hl] at hstray
      apply ih
      · have : (splitStep st line).cur = headingKeyOf line := by simp [splitStep, hl]
        rw [this]; exact hstray
      · intro _
        simp only [splitStep, if_pos hl]
        cases hc : st.cur with
        | some k0 => simp
        | none => simp [hinv hc]
    · rw [if_neg hl] at hstray
      rw [Bool.and_eq_true] at hstray
      apply ih
      · have : (splitStep st line).cur = st.cur := by simp [splitStep, hl]
        rw [this]; exact hstray.2
      · intro hc
        have hcc : (splitStep st line).cur = st.cur := by simp [splitStep, hl]
        rw [hcc] at hc
        rw [hc] at hstray
        exact absurd hstray.1 (by simp)

theorem pick_of_empty (flag flag2 : Bool) (m : List (S × S)) (k heading : S)
    (h : getSec m k = some []) : pick flag m k heading = pick flag2 m k heading := by
  unfold pick
  rw [h]
  simp

/-- C10 fails as stated: even when a recognized heading is immediately
followed by another heading line, the key may be bound to a nonempty body —
lines buffered while no section was open (here the stray preamble `"junk"`)
are flushed into it instead of the empty string. -/
theorem claim_C10_counterexample :
    headingKeyOf "## Medications".toList = some keyMeds ∧
    splitlines "junk\n## Medications\n## PT/OT\nx".toList =
      ["junk".toList, "## Medications".toList, "## PT/OT".toList, "x".toList] ∧
    getSec (split_sections "junk\n## Medications\n## PT/OT\nx".toList) keyMeds =
      some "junk".toList ∧
    (some "junk".toList : Option S) ≠ some [] := by
  refine ⟨by decide, by decide, by decide, by decide⟩

/-- C10 (amended): if a recognized heading is immediately followed by
another heading line or by the end of input, *no stray body line precedes
it while no section is open*, and no other line resolves to the same
category, then the splitter's map binds that category key to the empty
string, and the filtered reassembly is unaffected by that category's
checkbox (the empty section is omitted even when selected). -/
theorem claim_C10_amended (md : S) (pre post : List S) (hline k : S)
    (hsplit : splitlines md = pre ++ hline :: post)
    (hk : headingKeyOf hline = some k)
    (hstray : noStrayFrom none pre = true)
    (hnext : post = [] ∨ ∃ l rest, post = l :: rest ∧ isHashLine l = true)
    (honce1 : ∀ l ∈ pre, headingKeyOf l ≠ some k)
    (honce2 : ∀ l ∈ post, headingKeyOf l ≠ some k) :
    getSec (split_sections md) k = some [] ∧
    (∀ fm fo fp fc fb fm2 fo2 fp2 fc2 fb2 raw,
      (k ≠ keyMeds → fm = fm2) → (k ≠ keyOrders → fo = fo2) →
      (k ≠ keyPtot → fp = fp2) → (k ≠ keyCm → fc = fc2) → (k ≠ keyBrief → fb = fb2) →
      final_text fm fo fp fc fb (split_sections md) raw =
        final_text fm2 fo2 fp2 fc2 fb2 (split_sections md) raw) := by
  have hhash : isHashLine hline = true := isHashLine_of_headingKeyOf hline k hk
  have hmain : getSec (split_sections md) k = some [] := by
    unfold split_sections
    rw [hsplit, List.foldl_append, List.foldl_cons]
    have hn1 := foldl_no_key pre ⟨none, [], []⟩ k (by simp) honce1
    have hinv1 : (pre.foldl splitStep ⟨none, [], []⟩).cur = none →
        (pre.foldl splitStep ⟨none, [], []⟩).buf = [] :=
      foldl_inv_buf pre ⟨none, [], []⟩ hstray (fun _ => rfl)
    set st1 := pre.foldl splitStep ⟨none, [], []⟩ with hst1
    have hst2cur : (splitStep st1 hline).cur = some k := by simp [splitStep, hhash, hk]
    have hst2buf : (splitStep st1 hline).buf = [] := by
      simp only [splitStep, if_pos hhash]
      cases hc : st1.cur with
      | some k0 => simp
      | none => simp [hinv1 hc]
    have hst2secs : getSec (splitStep st1 hline).secs k = none := by
      have : (splitStep st1 hline).secs = flushInto st1 := by simp [splitStep, hhash]
      rw [this, flushInto_no_key st1 k hn1.1, hn1.2]
      rfl
    set st2 := splitStep st1 hline with hst2
    have hflush2 : flushInto st2 = dictInsert st2.secs k [] := by
      unfold flushInto
      rw [hst2cur, hst2buf]
      rfl
    rcases hnext with hpost | ⟨l, rest, hpost, hlh⟩
    · subst hpost
      simp only [List.foldl_nil]
      rw [hflush2, getSec_dictInsert_self]
    · subst hpost
      simp only [List.foldl_cons]
      have hst3cur : (splitStep st2 l).cur = headingKeyOf l := by simp [splitStep, hlh]
      have hst3secs : (splitStep st2 l).secs = flushInto st2 := by simp [splitStep, hlh]
      have hn3 := foldl_no_key rest (splitStep st2 l) k
        (by rw [hst3cur]; exact honce2 l (by simp))
        (fun l2 hl2 => honce2 l2 (by simp [hl2]))
      rw [flushInto_no_key _ k hn3.1, hn3.2, hst3secs, hflush2, getSec_dictInsert_self]
  refine ⟨hmain, ?_⟩
  intro fm fo fp fc fb fm2 fo2 fp2 fc2 fb2 raw h1 h2 h3 h4 h5
  have e1 : pick fm (split_sections md) keyMeds hMeds =
      pick fm2 (split_sections md) keyMeds hMeds := by
    by_cases hkk : k = keyMeds
    · subst hkk; exact pick_of_empty fm fm2 _ _ _ hmain
    · rw [h1 hkk]
  have e2 : pick fo (split_sections md) keyOrders hOrders =
      pick fo2 (split_sections md) keyOrders hOrders := by
    by_cases hkk : k = keyOrders
    · subst hkk; exact pick_of_empty fo fo2 _ _ _ hmain
    · rw [h2 hkk]
  have e3 : pick fp (split_sections md) keyPtot hPtot =
      pick fp2 (split_sections md) keyPtot hPtot := by
    by_cases hkk : k = keyPtot
    · subst hkk; exact pick_of_empty fp fp2 _ _ _ hmain
    · rw [h3 hkk]
  have e4 : pick fc (split_sections md) keyCm hCm =
      pick fc2 (split_sections md) keyCm hCm := by
    by_cases hkk : k = keyCm
    · subst hkk; exact pick_of_empty fc fc2 _ _ _ hmain
    · rw [h4 hkk]
  have e5 : pick fb (split_sections md) keyBrief hBrief =
      pick fb2 (split_sections md) keyBrief hBrief := by
    by_cases hkk : k = keyBrief
    · subst hkk; exact pick_of_empty fb fb2 _ _ _ hmain
    · rw [h5 hkk]
  unfold final_text collectedList
  rw [e1, e2, e3, e4, e5]

/-- Witness for the amended C10: `meds` heading directly followed by another
heading yields the empty binding, and the Medications checkbox has no
effect on the rendered text. -/
theorem claim_C10_witness :
    getSec (split_sections "## Medications\n## PT/OT\nx".toList) keyMeds = some [] ∧
    final_text true true true true true
        (split_sections "## Medications\n## PT/OT\nx".toList) "r".toList =
      final_text false true true true true
        (split_sections "## Medications\n## PT/OT\nx".toList) "r".toList := by
  have h := claim_C10_amended "## Medications\n## PT/OT\nx".toList []
    ["## PT/OT".toList, "x".toList] "## Medications".toList keyMeds
    (by decide) (by decide) (by decide)
    (Or.inr ⟨"## PT/OT".toList, ["x".toList], by decide, by decide⟩)
    (by decide) (by decide)
  exact ⟨h.1, h.2 true true true true true false true true true true "r".toList
    (fun hne => absurd rfl hne) (fun _ => rfl) (fun _ => rfl) (fun _ => rfl) (fun _ => rfl)⟩

/-- C8: triggering Run in single-note mode with the note input empty
surfaces the validation warning and aborts; no remote summarizer call is
made. -/
theorem claim_C8 (noteA roleName : S) :
    runAction .single noteA [] roleName = .warn warnOne ∧
    (∀ b r, runAction .single noteA [] roleName ≠ .singleCall b r) ∧
    (∀ a b r, runAction .single noteA [] roleName ≠ .compareCall a b r) := by
  refine ⟨rfl, ?_, ?_⟩
  · intro b r h
    rw [show runAction .single noteA [] roleName = .warn warnOne from rfl] at h
    cases h
  · intro a b r h
    rw [show runAction .single noteA [] roleName = .warn warnOne from rfl] at h
    cases h

/-- C2 fails as stated: a single word wider than the usable width is emitted
as-is (after first emitting the pending line), so its rendered width exceeds
the page's usable width; the code never breaks inside a word.  Width
instance: every character 944 font units wide (the Helvetica advance width
of `W`; at size 10 a 50-`W` word is 472 pt, above the 468 pt usable width
of a letter page with one-inch margins, here expressed in hundredths of a
point as 47200 > 46800). -/
theorem claim_C2_counterexample :
    List.replicate 50 'W' ∈
      pdfLines (fun _ => 944) 46800 (List.replicate 50 'W') ∧
    46800 < sumW (fun _ => 944) (List.replicate 50 'W') := by
  refine ⟨by decide, by decide⟩

theorem wrapWords_fits (cw : Char → Nat) (maxW : Nat) (W : List S) :
    ∀ ws current, (sumW cw current ≤ maxW ∨ current ∈ W) → (∀ w ∈ ws, w ∈ W) →
      ∀ L ∈ wrapWords cw maxW current ws, sumW cw L ≤ maxW ∨ L ∈ W := by
  intro ws
  induction ws with
  | nil =>
    intro current hcur _ L hL
    unfold wrapWords at hL
    by_cases hc : current.isEmpty = true
    · rw [if_pos hc] at hL; cases hL
    · rw [if_neg hc] at hL
      rw [List.mem_singleton] at hL
      subst hL
      exact hcur
  | cons w ws ih =>
    intro current hcur hws L hL
    unfold wrapWords at hL
    by_cases ht : maxW < sumW cw (pyStrip (current ++ ' ' :: w))
    · rw [if_pos ht] at hL
      rcases List.mem_cons.mp hL with rfl | hL2
      · exact hcur
      · exact ih w (Or.inr (hws w (by simp))) (fun x hx => hws x (by simp [hx])) L hL2
    · rw [if_neg ht] at hL
      exact ih (pyStrip (current ++ ' ' :: w)) (Or.inl (Nat.le_of_not_lt ht))
        (fun x hx => hws x (by simp [hx])) L hL

/-- C2 (amended): for every character-width metric, every usable width and
every input, each line the PDF renderer emits either fits within the usable
width or is a single space-delimited input word (emitted unbroken because
the wrapper never hyphenates); on overflow the pending line is emitted and
the overflow word starts the next line, as the loop shape shows. -/
theorem claim_C2_amended (cw : Char → Nat) (maxW : Nat) (text : S) (L : S)
    (hL : L ∈ pdfLines cw maxW text) :
    sumW cw L ≤ maxW ∨ ∃ line ∈ splitlines text, L ∈ pySplitSpace line := by
  unfold pdfLines at hL
  rw [List.mem_flatMap] at hL
  obtain ⟨line, hline, hLin⟩ := hL
  have := wrapWords_fits cw maxW (pySplitSpace line) (pySplitSpace line) []
    (Or.inl (by simp [sumW])) (fun w hw => hw) L hLin
  rcases this with h | h
  · exact Or.inl h
  · exact Or.inr ⟨line, hline, h⟩

/-- Witness for the amended C2 at a concrete metric and text. -/
theorem claim_C2_amended_witness :
    "ab".toList ∈ pdfLines (fun _ => 1) 2 "ab cd".toList ∧
    (sumW (fun _ => 1) "ab".toList ≤ 2 ∨
      ∃ line ∈ splitlines "ab cd".toList, "ab".toList ∈ pySplitSpace line) :=
  ⟨by decide, claim_C2_amended (fun _ => 1) 2 "ab cd".toList "ab".toList (by decide)⟩

theorem splitlinesGo_ne_nil (s : S) : ∀ cur, splitlinesGo cur s ≠ [] := by
  induction s with
  | nil => intro cur; simp [splitlinesGo]
  | cons c rest ih =>
    intro cur
    cases rest with
    | nil =>
      unfold splitlinesGo
      by_cases h : (c = '\n' || c = '\r') = true
      · rw [if_pos h]; simp
      · rw [if_neg h]; simp
    | cons c2 rest2 =>
      unfold splitlinesGo
      by_cases h1 : c = '\n'
      · rw [if_pos h1]; simp
      · rw [if_neg h1]
        by_cases h2 : c = '\r'
        · rw [if_pos h2]
          by_cases h3 : c2 = '\n'
          · rw [if_pos h3]
            cases rest2 <;> simp
          · rw [if_neg h3]; simp
        · rw [if_neg h2]
          exact ih (c :: cur)

theorem splitlines_ne_nil (b : S) (h : b ≠ []) : splitlines b ≠ [] := by
  obtain ⟨c, t, rfl⟩ := List.exists_cons_of_ne_nil h
  exact splitlinesGo_ne_nil (c :: t) []

theorem splitlinesGo_cons_nl (cur : S) (c2 : Char) (rest : S) :
    splitlinesGo cur ('\n' :: c2 :: rest) = cur.reverse :: splitlinesGo [] (c2 :: rest) := by
  rw [splitlinesGo.eq_def]
  simp

theorem splitlinesGo_cons_other (cur : S) (c c2 : Char) (rest : S)
    (h1 : c ≠ '\n') (h2 : c ≠ '\r') :
    splitlinesGo cur (c :: c2 :: rest) = splitlinesGo (c :: cur) (c2 :: rest) := by
  rw [splitlinesGo.eq_def]
  simp [h1, h2]

theorem splitlinesGo_single_other (cur : S) (c : Char) (h1 : c ≠ '\n') (h2 : c ≠ '\r') :
    splitlinesGo cur [c] = [(c :: cur).reverse] := by
  rw [splitlinesGo.eq_def]
  simp [h1, h2]

theorem splitlinesGo_single_nl (cur : S) : splitlinesGo cur ['\n'] = [cur.reverse] := by
  rw [splitlinesGo.eq_def]
  simp

theorem splitlinesGo_append_nl (A : S) : ∀ (B cur : S), '\n' ∉ A → '\r' ∉ A →
    splitlinesGo cur (A ++ '\n' :: B) = (cur.reverse ++ A) :: splitlines B := by
  induction A with
  | nil =>
    intro B cur _ _
    cases B with
    | nil =>
      show splitlinesGo cur ['\n'] = (cur.reverse ++ []) :: splitlines []
      rw [List.append_nil, splitlinesGo_single_nl]
      rfl
    | cons b bs =>
      show splitlinesGo cur ('\n' :: b :: bs) = (cur.reverse ++ []) :: splitlines (b :: bs)
      rw [List.append_nil, splitlinesGo_cons_nl]
      rfl
  | cons a A ih =>
    intro B cur h1 h2
    have ha1 : a ≠ '\n' := fun h => h1 (by simp [h])
    have ha2 : a ≠ '\r' := fun h => h2 (by simp [h])
    obtain ⟨t0, T, hT⟩ : ∃ t0 T, A ++ '\n' :: B = t0 :: T := by
      cases A with
      | nil => exact ⟨'\n', B, rfl⟩
      | cons a2 A2 => exact ⟨a2, A2 ++ '\n' :: B, rfl⟩
    show splitlinesGo cur (a :: (A ++ '\n' :: B)) = (cur.reverse ++ a :: A) :: splitlines B
    rw [hT, splitlinesGo_cons_other cur a t0 T ha1 ha2, ← hT]
    rw [ih B (a :: cur) (fun h => h1 (by simp [h])) (fun h => h2 (by simp [h]))]
    rw [List.reverse_cons, List.append_assoc]
    rfl

theorem splitlines_append_nl (A B : S) (h1 : '\n' ∉ A) (h2 : '\r' ∉ A) :
    splitlines (A ++ '\n' :: B) = A :: splitlines B := by
  cases A with
  | nil => simpa using splitlinesGo_append_nl [] B [] h1 h2
  | cons a A' =>
    show splitlinesGo [] ((a :: A') ++ '\n' :: B) = (a :: A') :: splitlines B
    simpa using splitlinesGo_append_nl (a :: A') B [] h1 h2

theorem splitlines_nl_cons (R : S) : splitlines ('\n' :: R) = [] :: splitlines R := by
  simpa using splitlines_append_nl [] R (by simp) (by simp)

theorem headD_of_reverse_cons (b : S) (c : Char) (hb : b ≠ []) (d : Char) :
    (c :: b).reverse.headD d = b.reverse.headD d := by
  rw [List.reverse_cons]
  exact headD_append_left b.reverse [c] d (by simpa using hb)

theorem splitlinesGo_split (b : S) : ∀ (C cur : S), b ≠ [] → '\r' ∉ b →
    b.reverse.headD 'x' ≠ '\n' →
    splitlinesGo cur (b ++ '\n' :: C) = splitlinesGo cur b ++ splitlines C := by
  induction b with
  | nil => intro C cur h _ _; exact absurd rfl h
  | cons c b ih =>
    intro C cur _ hr hlast
    have hc_r : c ≠ '\r' := fun h => hr (by simp [h])
    cases b with
    | nil =>
      have hc_n : c ≠ '\n' := by simpa using hlast
      show splitlinesGo cur (c :: '\n' :: C) = splitlinesGo cur [c] ++ splitlines C
      rw [splitlinesGo_cons_other cur c '\n' C hc_n hc_r]
      rw [splitlinesGo_single_other cur c hc_n hc_r]
      cases C with
      | nil =>
        rw [splitlinesGo_single_nl]
        rfl
      | cons c3 cs =>
        rw [splitlinesGo_cons_nl]
        rfl
    | cons b0 bs =>
      have hlast' : (b0 :: bs).reverse.headD 'x' ≠ '\n' := by
        rw [headD_of_reverse_cons (b0 :: bs) c (by simp)] at hlast
        exact hlast
      have hr' : '\r' ∉ (b0 :: bs) := fun h => hr (by simp [h])
      have hrec := fun cur2 => ih C cur2 (by simp) hr' hlast'
      by_cases hcn : c = '\n'
      · subst hcn
        show splitlinesGo cur ('\n' :: ((b0 :: bs) ++ '\n' :: C)) =
          splitlinesGo cur ('\n' :: b0 :: bs) ++ splitlines C
        rw [List.cons_append, splitlinesGo_cons_nl, ← List.cons_append, hrec []]
        rw [splitlinesGo_cons_nl]
        rfl
      · show splitlinesGo cur (c :: ((b0 :: bs) ++ '\n' :: C)) =
          splitlinesGo cur (c :: b0 :: bs) ++ splitlines C
        rw [List.cons_append, splitlinesGo_cons_other cur c b0 (bs ++ '\n' :: C) hcn hc_r]
        rw [← List.cons_append, hrec (c :: cur)]
        rw [splitlinesGo_cons_other cur c b0 bs hcn hc_r]

theorem splitlines_split (b C : S) (hb : b ≠ []) (hr : '\r' ∉ b)
    (hlast : b.reverse.headD 'x' ≠ '\n') :
    splitlines (b ++ '\n' :: C) = splitlines b ++ splitlines C := by
  obtain ⟨c, t, rfl⟩ := List.exists_cons_of_ne_nil hb
  show splitlinesGo [] ((c :: t) ++ '\n' :: C) = splitlinesGo [] (c :: t) ++ splitlines C
  exact splitlinesGo_split (c :: t) C [] hb hr hlast

theorem joinSep_cons_of_ne_nil (sep x : S) (L : List S) (h : L ≠ []) :
    joinSep sep (x :: L) = x ++ sep ++ joinSep sep L := by
  cases L with
  | nil => exact absurd rfl h
  | cons y r => rfl

theorem joinSep_splitlinesGo (b : S) : ∀ cur, '\r' ∉ b → b.reverse.headD 'x' ≠ '\n' →
    joinSep nl (splitlinesGo cur b) = cur.reverse ++ b := by
  induction b with
  | nil =>
    intro cur _ _
    show joinSep nl [cur.reverse] = cur.reverse ++ []
    rw [List.append_nil]
    rfl
  | cons c b ih =>
    intro cur hr hlast
    have hc_r : c ≠ '\r' := fun h => hr (by simp [h])
    cases b with
    | nil =>
      have hc_n : c ≠ '\n' := by simpa using hlast
      show joinSep nl (splitlinesGo cur [c]) = cur.reverse ++ [c]
      rw [splitlinesGo_single_other cur c hc_n hc_r]
      show (c :: cur).reverse = cur.reverse ++ [c]
      rw [List.reverse_cons]
    | cons b0 bs =>
      have hlast' : (b0 :: bs).reverse.headD 'x' ≠ '\n' := by
        rw [headD_of_reverse_cons (b0 :: bs) c (by simp)] at hlast
        exact hlast
      have hr' : '\r' ∉ (b0 :: bs) := fun h => hr (by simp [h])
      by_cases hcn : c = '\n'
      · subst hcn
        show joinSep nl (splitlinesGo cur ('\n' :: b0 :: bs)) = cur.reverse ++ '\n' :: b0 :: bs
        rw [splitlinesGo_cons_nl]
        rw [joinSep_cons_of_ne_nil nl _ _ (splitlinesGo_ne_nil (b0 :: bs) [])]
        rw [ih [] hr' hlast']
        simp [nl]
      · show joinSep nl (splitlinesGo cur (c :: b0 :: bs)) = cur.reverse ++ c :: b0 :: bs
        rw [splitlinesGo_cons_other cur c b0 bs hcn hc_r]
        rw [ih (c :: cur) hr' hlast']
        rw [List.reverse_cons, List.append_assoc]
        rfl

theorem joinSep_splitlines (b : S) (hr : '\r' ∉ b) (hlast : b.reverse.headD 'x' ≠ '\n') :
    joinSep nl (splitlines b) = b := by
  cases b with
  | nil => rfl
  | cons c t =>
    show joinSep nl (splitlinesGo [] (c :: t)) = c :: t
    simpa using joinSep_splitlinesGo (c :: t) [] hr hlast

theorem joinSep_append_single (sep : S) (y : S) : ∀ (xs : List S), xs ≠ [] →
    joinSep sep (xs ++ [y]) = joinSep sep xs ++ sep ++ y := by
  intro xs
  induction xs with
  | nil => intro h; exact absurd rfl h
  | cons x r ih =>
    intro _
    cases r with
    | nil => rfl
    | cons x2 r2 =>
      show joinSep sep (x :: ((x2 :: r2) ++ [y])) = joinSep sep (x :: x2 :: r2) ++ sep ++ y
      rw [List.cons_append, joinSep, ← List.cons_append, ih (by simp)]
      rw [joinSep]
      simp [List.append_assoc]

theorem pyStrip_append_ws (x : S) (c : Char) (hc : isPySpace c = true) :
    pyStrip (x ++ [c]) = pyStrip x := by
  unfold pyStrip
  by_cases hx : x.dropWhile isPySpace = []
  · have hxc : (x ++ [c]).dropWhile isPySpace = [] := by
      rw [List.dropWhile_append]
      simp [hx, hc]
    rw [hx, hxc]
  · have hxc : (x ++ [c]).dropWhile isPySpace = x.dropWhile isPySpace ++ [c] := by
      rw [List.dropWhile_append]
      simp [hx]
    rw [hxc, List.reverse_append]
    simp only [List.reverse_cons, List.reverse_nil, List.nil_append, List.singleton_append]
    rw [List.dropWhile_cons_of_pos]
    simpa using hc

theorem pyStrip_of_good (b : S) (h1 : isPySpace (b.headD 'x') = false)
    (h2 : isPySpace (b.reverse.headD 'x') = false) : pyStrip b = b := by
  cases b with
  | nil => rfl
  | cons c t =>
    unfold pyStrip
    have hd : (c :: t).dropWhile isPySpace = c :: t := by
      rw [List.dropWhile_cons_of_neg]
      simp only [List.headD_cons] at h1
      simp [h1]
    rw [hd]
    obtain ⟨d, u, hdu⟩ := List.exists_cons_of_ne_nil
      (show (c :: t).reverse ≠ [] by simp)
    rw [hdu, List.dropWhile_cons_of_neg, ← hdu, List.reverse_reverse]
    rw [hdu] at h2
    simp only [List.headD_cons] at h2
    simp [h2]

theorem goodBody_strip (b : S) (h : goodBody b) : pyStrip b = b :=
  pyStrip_of_good b h.2.1 h.2.2.1

theorem goodBody_last_ne_nl (b : S) (h : goodBody b) : b.reverse.headD 'x' ≠ '\n' := by
  intro hc
  have h2 := h.2.2.1
  rw [hc] at h2
  simp [isPySpace] at h2

theorem foldl_splitStep_nonhash (lines : List S) : ∀ (st : SplitState),
    (∀ l ∈ lines, isHashLine l = false) →
    lines.foldl splitStep st = ⟨st.cur, st.buf ++ lines, st.secs⟩ := by
  induction lines with
  | nil => intro st _; cases st; simp
  | cons l ls ih =>
    intro st h
    simp only [List.foldl_cons]
    have hl : isHashLine l = false := h l (by simp)
    have hstep : splitStep st l = ⟨st.cur, st.buf ++ [l], st.secs⟩ := by
      cases st
      simp [splitStep, hl]
    rw [hstep, ih _ (fun x hx => h x (by simp [hx]))]
    simp

theorem splitlines_reassemble (blocks : List (S × S × S)) : blocks ≠ [] →
    (∀ x ∈ blocks, goodBlock x) →
    splitlines (reassemble blocks) = linesOf blocks := by
  induction blocks with
  | nil => intro h _; exact absurd rfl h
  | cons x rest ih =>
    intro _ hgood
    obtain ⟨hh1, hh2, hh3, hh4, hbody⟩ := hgood x (by simp)
    cases rest with
    | nil =>
      show splitlines (renderBlock x) = blockLines x
      unfold renderBlock blockLines
      exact splitlines_append_nl x.2.1 x.2.2 hh2 hh3
    | cons y rest2 =>
      have hrw : reassemble (x :: y :: rest2) =
          x.2.1 ++ '\n' :: (x.2.2 ++ '\n' :: ('\n' :: reassemble (y :: rest2))) := by
        show renderBlock x ++ nn ++ joinSep nn ((y :: rest2).map renderBlock) = _
        unfold renderBlock reassemble
        simp only [nn, List.append_assoc, List.cons_append, List.nil_append]
        rfl
      rw [hrw]
      rw [splitlines_append_nl _ _ hh2 hh3]
      rw [splitlines_split x.2.2 _ hbody.1 hbody.2.2.2.1 (goodBody_last_ne_nl _ hbody)]
      rw [splitlines_nl_cons]
      rw [ih (by simp) (fun z hz => hgood z (by simp [hz]))]
      show x.2.1 :: (splitlines x.2.2 ++ [] :: linesOf (y :: rest2)) =
        blockLines x ++ [] :: linesOf (y :: rest2)
      unfold blockLines
      simp

theorem splitFold_blocks (blocks : List (S × S × S)) :
    ∀ (st : SplitState), blocks ≠ [] →
    (∀ x ∈ blocks, goodBlock x) → ((blocks.map (fun x => x.1)).Nodup) →
    (st.cur.isSome = true ∨ st.buf = []) →
    (∀ k2, k2 ∉ blocks.map (fun x => x.1) →
       getSec (flushInto ((linesOf blocks).foldl splitStep st)) k2 =
         getSec (flushInto st) k2) ∧
    (∀ x ∈ blocks, getSec (flushInto ((linesOf blocks).foldl splitStep st)) x.1 =
       some x.2.2) := by
  induction blocks with
  | nil => intro st hne _ _ _; exact absurd rfl hne
  | cons x rest ih =>
    intro st _ hgood hnd hinv
    obtain ⟨hh1, hh2, hh3, hh4, hbody⟩ := hgood x (by simp)
    obtain ⟨hbne, hbh, hbl, hbr, hbli⟩ := hbody
    have hbuf0 : (if st.cur.isSome then [] else st.buf) = ([] : List S) := by
      rcases hinv with h | h
      · rw [if_pos h]
      · rw [h]
        simp
    have hstep : splitStep st x.2.1 = ⟨some x.1, [], flushInto st⟩ := by
      simp only [splitStep, if_pos hh1, hh4, hbuf0]
    have hjoin : pyStrip (joinSep nl (splitlines x.2.2)) = x.2.2 := by
      rw [joinSep_splitlines x.2.2 hbr (goodBody_last_ne_nl x.2.2
        ⟨hbne, hbh, hbl, hbr, hbli⟩)]
      exact pyStrip_of_good x.2.2 hbh hbl
    cases rest with
    | nil =>
      have hfold : (linesOf [x]).foldl splitStep st =
          ⟨some x.1, splitlines x.2.2, flushInto st⟩ := by
        show (blockLines x).foldl splitStep st = _
        unfold blockLines
        rw [List.foldl_cons, hstep, foldl_splitStep_nonhash _ _ hbli]
        rfl
      rw [hfold]
      have hval : flushInto ⟨some x.1, splitlines x.2.2, flushInto st⟩ =
          dictInsert (flushInto st) x.1 x.2.2 := by
        unfold flushInto
        rw [hjoin]
      rw [hval]
      constructor
      · intro k2 hk2
        have : k2 ≠ x.1 := by
          intro h
          apply hk2
          rw [List.map_cons, h]
          exact List.mem_cons_self _ _
        exact getSec_dictInsert_ne _ _ _ _ this
      · intro z hz
        rw [List.mem_singleton] at hz
        subst hz
        exact getSec_dictInsert_self _ _ _
    | cons y rest2 =>
      have hlines : linesOf (x :: y :: rest2) =
          blockLines x ++ [] :: linesOf (y :: rest2) := rfl
      have hfoldA : (blockLines x).foldl splitStep st =
          ⟨some x.1, splitlines x.2.2, flushInto st⟩ := by
        unfold blockLines
        rw [List.foldl_cons, hstep, foldl_splitStep_nonhash _ _ hbli]
        rfl
      have hstB : splitStep ⟨some x.1, splitlines x.2.2, flushInto st⟩ ([] : S) =
          ⟨some x.1, splitlines x.2.2 ++ [[]], flushInto st⟩ := by
        simp [splitStep, isHashLine]
      have hflushB : flushInto ⟨some x.1, splitlines x.2.2 ++ [[]], flushInto st⟩ =
          dictInsert (flushInto st) x.1 x.2.2 := by
        unfold flushInto
        rw [joinSep_append_single nl [] (splitlines x.2.2) (splitlines_ne_nil x.2.2 hbne)]
        rw [List.append_nil, joinSep_splitlines x.2.2 hbr (goodBody_last_ne_nl x.2.2
          ⟨hbne, hbh, hbl, hbr, hbli⟩)]
        rw [show (nl : S) = ['\n'] from rfl]
        rw [pyStrip_append_ws x.2.2 '\n' (by simp [isPySpace])]
        rw [pyStrip_of_good x.2.2 hbh hbl]
      have hx1notin : x.1 ∉ (y :: rest2).map (fun z => z.1) := by
        have := List.nodup_cons.mp hnd
        exact this.1
      have hndrest : ((y :: rest2).map (fun z => z.1)).Nodup :=
        (List.nodup_cons.mp hnd).2
      have hrec := ih ⟨some x.1, splitlines x.2.2 ++ [[]], flushInto st⟩ (by simp)
        (fun z hz => hgood z (by simp [hz])) hndrest (Or.inl rfl)
      have hfold : (linesOf (x :: y :: rest2)).foldl splitStep st =
          (linesOf (y :: rest2)).foldl splitStep
            ⟨some x.1, splitlines x.2.2 ++ [[]], flushInto st⟩ := by
        rw [hlines, List.foldl_append, hfoldA, List.foldl_cons, hstB]
      constructor
      · intro k2 hk2
        have hk2x : k2 ≠ x.1 := by
          intro h
          apply hk2
          rw [List.map_cons, h]
          exact List.mem_cons_self _ _
        have hk2rest : k2 ∉ (y :: rest2).map (fun z => z.1) := by
          intro h
          apply hk2
          rw [List.map_cons]
          exact List.mem_cons_of_mem _ h
        rw [hfold, hrec.1 k2 hk2rest, hflushB]
        exact getSec_dictInsert_ne _ _ _ _ hk2x
      · intro z hz
        rcases List.mem_cons.mp hz with rfl | hz2
        · rw [hfold, hrec.1 z.1 hx1notin, hflushB]
          exact getSec_dictInsert_self _ _ _
        · rw [hfold]
          exact hrec.2 z hz2

theorem mem_pickB (flag : Bool) (m : List (S × S)) (k heading : S) (x : S × S × S)
    (hx : x ∈ pickB flag m k heading) :
    x.1 = k ∧ x.2.1 = heading ∧ getSec m k = some x.2.2 := by
  unfold pickB at hx
  cases h : getSec m k with
  | none => rw [h] at hx; cases hx
  | some b =>
    rw [h] at hx
    have hx2 : x ∈ (if (flag && !b.isEmpty) = true then [(k, heading, b)] else []) := hx
    by_cases hf : (flag && !b.isEmpty) = true
    · rw [if_pos hf] at hx2
      rw [List.mem_singleton] at hx2
      subst hx2
      refine ⟨rfl, rfl, ?_⟩
      rfl
    · rw [if_neg hf] at hx2; cases hx2

theorem pick_eq_pickB (flag : Bool) (m : List (S × S)) (k heading : S) :
    pick flag m k heading = (pickB flag m k heading).map renderBlock := by
  unfold pick pickB
  cases h : getSec m k with
  | none => rfl
  | some b =>
    show (if (flag && !b.isEmpty) = true then [heading ++ '\n' :: b] else []) =
      List.map renderBlock (if (flag && !b.isEmpty) = true then [(k, heading, b)] else [])
    by_cases hf : (flag && !b.isEmpty) = true
    · rw [if_pos hf, if_pos hf]; rfl
    · rw [if_neg hf, if_neg hf]; rfl

theorem collectedList_eq_blocks (fm fo fp fc fb : Bool) (m : List (S × S)) :
    collectedList fm fo fp fc fb m = (blocksOf fm fo fp fc fb m).map renderBlock := by
  unfold collectedList blocksOf
  rw [List.map_append, List.map_append, List.map_append, List.map_append]
  rw [pick_eq_pickB, pick_eq_pickB, pick_eq_pickB, pick_eq_pickB, pick_eq_pickB]

theorem pickB_keys_sublist (flag : Bool) (m : List (S × S)) (k heading : S) :
    ((pickB flag m k heading).map (fun x => x.1)).Sublist [k] := by
  unfold pickB
  cases getSec m k with
  | none => exact List.nil_sublist _
  | some b =>
    show (List.map (fun x => x.1)
      (if (flag && !b.isEmpty) = true then [(k, heading, b)] else [])).Sublist [k]
    by_cases hf : (flag && !b.isEmpty) = true
    · rw [if_pos hf]
      exact List.Sublist.refl _
    · rw [if_neg hf]
      exact List.nil_sublist _

theorem blocksOf_keys_nodup (fm fo fp fc fb : Bool) (m : List (S × S)) :
    ((blocksOf fm fo fp fc fb m).map (fun x => x.1)).Nodup := by
  have hsub : ((blocksOf fm fo fp fc fb m).map (fun x => x.1)).Sublist
      [keyMeds, keyOrders, keyPtot, keyCm, keyBrief] := by
    unfold blocksOf
    rw [List.map_append, List.map_append, List.map_append, List.map_append]
    exact ((((pickB_keys_sublist fm m keyMeds hMeds).append
      (pickB_keys_sublist fo m keyOrders hOrders)).append
      (pickB_keys_sublist fp m keyPtot hPtot)).append
      (pickB_keys_sublist fc m keyCm hCm)).append
      (pickB_keys_sublist fb m keyBrief hBrief)
  exact List.Nodup.sublist hsub (by decide)

theorem blocksOf_goodBlock (fm fo fp fc fb : Bool) (m : List (S × S)) (x : S × S × S)
    (hx : x ∈ blocksOf fm fo fp fc fb m) (hb : goodBody x.2.2) : goodBlock x := by
  unfold blocksOf at hx
  simp only [List.mem_append] at hx
  rcases hx with (((hx | hx) | hx) | hx) | hx
  · obtain ⟨h1, h2, -⟩ := mem_pickB _ _ _ _ _ hx
    exact ⟨by rw [h2]; decide, by rw [h2]; decide, by rw [h2]; decide,
      by rw [h2, h1]; decide, hb⟩
  · obtain ⟨h1, h2, -⟩ := mem_pickB _ _ _ _ _ hx
    exact ⟨by rw [h2]; decide, by rw [h2]; decide, by rw [h2]; decide,
      by rw [h2, h1]; decide, hb⟩
  · obtain ⟨h1, h2, -⟩ := mem_pickB _ _ _ _ _ hx
    exact ⟨by rw [h2]; decide, by rw [h2]; decide, by rw [h2]; decide,
      by rw [h2, h1]; decide, hb⟩
  · obtain ⟨h1, h2, -⟩ := mem_pickB _ _ _ _ _ hx
    exact ⟨by rw [h2]; decide, by rw [h2]; decide, by rw [h2]; decide,
      by rw [h2, h1]; decide, hb⟩
  · obtain ⟨h1, h2, -⟩ := mem_pickB _ _ _ _ _ hx
    exact ⟨by rw [h2]; decide, by rw [h2]; decide, by rw [h2]; decide,
      by rw [h2, h1]; decide, hb⟩

theorem ne_nil_of_isHashLine (l : S) (h : isHashLine l = true) : l ≠ [] := by
  intro hl
  rw [hl] at h
  exact absurd h (by decide)

theorem headD_of_isHashLine (l : S) (h : isHashLine l = true) (d : Char) :
    l.headD d = '#' := by
  rw [isHashLine.eq_def] at h
  split at h
  · rfl
  · cases h

theorem renderBlock_ne_nil (x : S × S × S) (h : isHashLine x.2.1 = true) :
    renderBlock x ≠ [] := by
  unfold renderBlock
  obtain ⟨c, t, he⟩ := List.exists_cons_of_ne_nil (ne_nil_of_isHashLine _ h)
  rw [he]
  simp

theorem renderBlock_last_headD (v : S × S × S) (hb : v.2.2 ≠ []) (d : Char) :
    (renderBlock v).reverse.headD d = v.2.2.reverse.headD d := by
  unfold renderBlock
  rw [List.reverse_append]
  rw [headD_append_left _ _ _ (by simp)]
  rw [List.reverse_cons]
  exact headD_append_left _ _ _ (by simpa using hb)

theorem joinSep_ne_nil (sep : S) (y : S) (r : List S) (hy : y ≠ []) :
    joinSep sep (y :: r) ≠ [] := by
  cases r with
  | nil => exact hy
  | cons a l =>
    show (y ++ sep) ++ joinSep sep (a :: l) ≠ []
    simp [hy]

theorem joinSep_last_headD (sep : S) (d : Char) : ∀ (L : List S), L ≠ [] →
    (∀ z ∈ L, z ≠ []) →
    ∃ z ∈ L, (joinSep sep L).reverse.headD d = z.reverse.headD d := by
  intro L
  induction L with
  | nil => intro h _; exact absurd rfl h
  | cons x r ih =>
    intro _ hel
    cases r with
    | nil => exact ⟨x, by simp, rfl⟩
    | cons y r2 =>
      obtain ⟨z, hz, he⟩ := ih (by simp) (fun w hw => hel w (by simp [hw]))
      refine ⟨z, by simp [hz], ?_⟩
      show ((x ++ sep) ++ joinSep sep (y :: r2)).reverse.headD d = _
      rw [List.reverse_append]
      rw [headD_append_left _ _ _
        (by simpa using joinSep_ne_nil sep y r2 (hel y (by simp)))]
      exact he

theorem pyStrip_reassemble (blocks : List (S × S × S)) (hne : blocks ≠ [])
    (hgood : ∀ x ∈ blocks, goodBlock x) :
    pyStrip (reassemble blocks) = reassemble blocks ∧ reassemble blocks ≠ [] := by
  obtain ⟨z, zs, rfl⟩ := List.exists_cons_of_ne_nil hne
  obtain ⟨hz1, -, -, -, hzbody⟩ := hgood z (by simp)
  have hrz : renderBlock z ≠ [] := renderBlock_ne_nil z hz1
  have hhead : (reassemble (z :: zs)).headD 'x' = '#' := by
    show (joinSep nn (renderBlock z :: zs.map renderBlock)).headD 'x' = '#'
    rw [joinSep_headD nn (renderBlock z) _ 'x' hrz]
    unfold renderBlock
    rw [headD_append_left _ _ _ (ne_nil_of_isHashLine _ hz1)]
    exact headD_of_isHashLine _ hz1 'x'
  have hne2 : reassemble (z :: zs) ≠ [] := joinSep_ne_nil nn _ _ hrz
  have hlast : isPySpace ((reassemble (z :: zs)).reverse.headD 'x') = false := by
    have hel : ∀ u ∈ (z :: zs).map renderBlock, u ≠ [] := by
      intro u hu
      obtain ⟨v, hv, rfl⟩ := List.mem_map.mp hu
      exact renderBlock_ne_nil v (hgood v hv).1
    obtain ⟨u, hu, he⟩ := joinSep_last_headD nn 'x' ((z :: zs).map renderBlock)
      (by simp) hel
    obtain ⟨v, hv, rfl⟩ := List.mem_map.mp hu
    obtain ⟨-, -, -, -, hvbody⟩ := hgood v hv
    show isPySpace ((joinSep nn ((z :: zs).map renderBlock)).reverse.headD 'x') = false
    rw [he, renderBlock_last_headD v hvbody.1]
    exact hvbody.2.2.1
  refine ⟨pyStrip_of_good _ (by rw [hhead]; decide) hlast, hne2⟩

theorem final_text_eq_reassemble (fm fo fp fc fb : Bool) (m : List (S × S)) (raw : S)
    (hne : blocksOf fm fo fp fc fb m ≠ [])
    (hgood : ∀ x ∈ blocksOf fm fo fp fc fb m, goodBlock x) :
    final_text fm fo fp fc fb m raw = reassemble (blocksOf fm fo fp fc fb m) := by
  unfold final_text
  rw [collectedList_eq_blocks]
  have h := pyStrip_reassemble _ hne hgood
  rw [show joinSep nn ((blocksOf fm fo fp fc fb m).map renderBlock) =
    reassemble (blocksOf fm fo fp fc fb m) from rfl]
  rw [h.1]
  rw [if_neg (by simpa using h.2)]

/-- C6 fails as stated: a body whose trimmed text begins with `#` (reachable
from a model response whose body line carries leading spaces) turns into a
heading-like line in the reassembly, so re-splitting flushes the section
early and loses the body: `meds` is re-bound to the empty string instead of
`"# x"`. -/
theorem claim_C6_counterexample :
    getSec (split_sections "## Medications\n  # x".toList) keyMeds = some "# x".toList ∧
    final_text true true true true true (split_sections "## Medications\n  # x".toList)
      "## Medications\n  # x".toList = "## Medications\n# x".toList ∧
    getSec (split_sections "## Medications\n# x".toList) keyMeds = some [] ∧
    (some "# x".toList : Option S) ≠ some [] := by
  refine ⟨by decide, by decide, by decide, by decide⟩

/-- C6 (amended): if every selected nonempty body is well formed (nonempty,
stripped, free of carriage returns and of lines starting with `#` — which
holds for every body a well-formed model response produces), then re-splitting
the reassembled filtered output reproduces exactly the body of each selected
category. -/
theorem claim_C6_amended (fm fo fp fc fb : Bool) (m : List (S × S)) (raw : S)
    (hgood : ∀ x ∈ blocksOf fm fo fp fc fb m, goodBody x.2.2)
    (x : S × S × S) (hx : x ∈ blocksOf fm fo fp fc fb m) :
    getSec (split_sections (final_text fm fo fp fc fb m raw)) x.1 = some x.2.2 := by
  have hgb : ∀ z ∈ blocksOf fm fo fp fc fb m, goodBlock z :=
    fun z hz => blocksOf_goodBlock fm fo fp fc fb m z hz (hgood z hz)
  have hne : blocksOf fm fo fp fc fb m ≠ [] := by
    intro h
    rw [h] at hx
    cases hx
  rw [final_text_eq_reassemble fm fo fp fc fb m raw hne hgb]
  unfold split_sections
  rw [splitlines_reassemble _ hne hgb]
  exact (splitFold_blocks _ ⟨none, [], []⟩ hne hgb (blocksOf_keys_nodup fm fo fp fc fb m)
    (Or.inr rfl)).2 x hx

/-- Witness for the amended C6 at a concrete one-section map. -/
theorem claim_C6_amended_witness :
    ((keyMeds, hMeds, "aa".toList) : S × S × S) ∈
      blocksOf true true true true true [(keyMeds, "aa".toList)] ∧
    getSec (split_sections (final_text true true true true true
      [(keyMeds, "aa".toList)] "r".toList)) keyMeds = some "aa".toList := by
  refine ⟨by decide, ?_⟩
  exact claim_C6_amended true true true true true [(keyMeds, "aa".toList)] "r".toList
    (by decide) (keyMeds, hMeds, "aa".toList) (by decide)
